import Mathlib

/-!
# Verification of the poltergeist request-dispatch engine

Shallow embedding of the core of the `poltergeist` Go repository:
the path-pattern matcher and route table (`router.go`), middleware-chain
composition (`router.go`), the pooled request `Context` (`context.go`),
the event pipeline (`events.go`), the room hub (`hub.go`) and the server
lifecycle emissions (`server.go`).  Go strings are Lean `String`s, Go maps
are association lists with map-update semantics, Go slices are Lean lists.
-/

namespace Poltergeist

/-! ## Go map model: `map[string]V` as an association list.
`mapSet` is Go's `m[k] = v` (overwrite in place, else add);
`mapGet` is Go's `m[k]` lookup. -/

def mapSet {α : Type} (ps : List (String × α)) (k : String) (v : α) :
    List (String × α) :=
  match ps with
  | [] => [(k, v)]
  | (k', v') :: rest =>
      if k' = k then (k, v) :: rest else (k', v') :: mapSet rest k v

def mapGet {α : Type} (ps : List (String × α)) (k : String) : Option α :=
  match ps with
  | [] => none
  | (k', v) :: rest => if k' = k then some v else mapGet rest k

/-! ## Path splitting (`splitPath`, `strings.Trim`, `strings.Split`) -/

/-- `strings.Trim(s, "/")` on the character list: drop leading and
trailing `/` characters. -/
def trimSlashes (s : List Char) : List Char :=
  ((s.dropWhile (· = '/')).reverse.dropWhile (· = '/')).reverse

/-- `strings.Split(s, "/")` on a character list: splitting the empty
string yields `[""]`, like Go. -/
def splitOnSlash : List Char → List Char → List (List Char)
  | [], acc => [acc.reverse]
  | c :: rest, acc =>
      if c = '/' then acc.reverse :: splitOnSlash rest []
      else splitOnSlash rest (c :: acc)

/-- `splitPath` from router.go: `strings.Split(strings.Trim(p, "/"), "/")`. -/
def splitPath (p : String) : List String :=
  (splitOnSlash (trimSlashes p.toList) []).map (fun l => String.mk l)

/-! ## Wildcard and parameter segment tests -/

/-- `strings.HasPrefix(s, pre)` for a single-character prefix. -/
def startsWithChar (c : Char) (s : String) : Bool :=
  match s.toList with
  | [] => false
  | c' :: _ => c' = c

/-- `strings.TrimPrefix` for a single-character prefix. -/
def dropLeadChar (c : Char) (s : String) : String :=
  match s.toList with
  | [] => s
  | c' :: rest => if c' = c then String.mk rest else s

/-- `checkWildcard` from router.go: does the last pattern segment begin
with `*`, and if so what is the name after `*`? -/
def checkWildcard (parts : List String) : Bool × String :=
  match parts.getLast? with
  | none => (false, "")
  | some lastPart =>
      if startsWithChar '*' lastPart then (true, dropLeadChar '*' lastPart)
      else (false, "")

/-- `validatePartCounts` from router.go. -/
def validatePartCounts (patternParts pathParts : List String)
    (hasWildcard : Bool) : Bool :=
  if hasWildcard then pathParts.length ≥ patternParts.length
  else patternParts.length = pathParts.length

/-- `strings.Join(parts, "/")`. -/
def joinSlash : List String → String
  | [] => ""
  | [s] => s
  | s :: rest => s ++ "/" ++ joinSlash rest

/-- The per-segment loop of `matchPath`: walk the (wildcard-stripped)
pattern segments against the path segments, accumulating captured
parameters; returns the parameter map and the unconsumed path segments,
or `none` on a literal mismatch or when the path runs out. -/
def matchSegments : List String → List String → List (String × String) →
    Option (List (String × String) × List String)
  | [], paths, params => some (params, paths)
  | _ :: _, [], _ => none
  | pp :: pps, path :: paths, params =>
      if startsWithChar ':' pp then
        matchSegments pps paths (mapSet params (dropLeadChar ':' pp) path)
      else if pp = path then matchSegments pps paths params
      else none

/-- `matchPath` from router.go: match a route pattern against a request
path, supporting exact matches, `:name` parameters and a trailing
`*name` wildcard.  Returns `(matched, params)`. -/
def matchPath (pattern requestPath : String) :
    Bool × List (String × String) :=
  if pattern = requestPath then (true, [])
  else
    let patternParts := splitPath pattern
    let pathParts := splitPath requestPath
    let wc := checkWildcard patternParts
    let patternParts' :=
      if wc.1 then patternParts.dropLast else patternParts
    if validatePartCounts patternParts' pathParts wc.1 then
      match matchSegments patternParts' pathParts [] with
      | some (params, leftover) =>
          if wc.1 then (true, mapSet params wc.2 (joinSlash leftover))
          else (true, params)
      | none => (false, [])
    else (false, [])

/-- The pattern segments used for positional comparison: `splitPath` of
the pattern with a trailing wildcard segment stripped (the
`patternParts` slice after the wildcard check in `matchPath`). -/
def strippedPatternParts (pattern : String) : List String :=
  let parts := splitPath pattern
  if (checkWildcard parts).1 then parts.dropLast else parts

/-! ## Context (context.go): per-request mutable state.
The `http.ResponseWriter` handed to a request is modelled as a `Writer`
recording the status code sent by the first `WriteHeader` call (Go
ignores later ones) and the sequence of body writes.  Values of Go's
`any` stored in the key/value map are modelled by `GoValue`. -/

structure Writer where
  sentStatus : Option Nat := none
  body : List String := []
deriving DecidableEq

/-- First `WriteHeader` wins; a superfluous second call is ignored. -/
def Writer.writeHeader (w : Writer) (code : Nat) : Writer :=
  if w.sentStatus = none then { w with sentStatus := some code } else w

def Writer.write (w : Writer) (data : String) : Writer :=
  { w with body := w.body ++ [data] }

/-- The parts of `*http.Request` the dispatcher reads: `req.Method` and
`req.URL.Path`. -/
structure Request where
  method : String
  path : String
deriving DecidableEq

/-- A value of Go's `any` as stored in the context's key/value store. -/
inductive GoValue : Type
  | str (s : String)
  | int (n : Int)
  | err (message : String)
deriving DecidableEq

/-- `Context` from context.go: request/response handles, path params,
status code, written flag, key/value store, realtime handles (`WS`,
`SSE`, modelled as opaque ids) and the router's pipeline reference
(modelled as an id; `reset` does not touch it). -/
structure Context where
  writer : Writer
  request : Request
  params : List (String × String)
  statusCode : Nat
  written : Bool
  keys : List (String × GoValue)
  ws : Option Nat
  sse : Option Nat
  pipeline : Nat
deriving DecidableEq

/-- `Context.reset` from context.go: reuse the pooled context for a new
request. -/
def Context.reset (c : Context) (w : Writer) (r : Request) : Context :=
  { c with
    writer := w
    request := r
    params := []
    statusCode := 200
    written := false
    keys := []
    ws := none
    sse := none }

/-- The context-acquisition prologue of `Router.ServeHTTP`:
`c := r.pool.Get().(*Context); c.reset(w, req); c.pipeline = r.pipeline`. -/
def acquireContext (c : Context) (w : Writer) (r : Request)
    (pl : Nat) : Context :=
  { c.reset w r with pipeline := pl }

/-- `Context.Set`: store a value in the key/value store. -/
def Context.set (c : Context) (key : String) (value : GoValue) : Context :=
  { c with keys := mapSet c.keys key value }

/-- `Context.Get`: `(any, bool)` return modelled as `Option`. -/
def Context.get (c : Context) (key : String) : Option GoValue :=
  mapGet c.keys key

/-- The JSON body `H\x7b"error": message\x7d` produced by
`Context.Error`. -/
def errorBody (message : String) : String :=
  "\x7b\"error\":\"" ++ message ++ "\"\x7d"

/-- `Context.JSON`: set the status, mark the response written, and write
the encoded body; the encoder error is always `nil` here. -/
def Context.toJSON (c : Context) (code : Nat) (body : String) :
    Context × Option String :=
  ({ c with
      writer := (c.writer.writeHeader code).write body
      written := true },
   none)

/-- `Context.Error`: a JSON error response `\x7b"error": message\x7d`. -/
def Context.error (c : Context) (code : Nat) (message : String) :
    Context × Option String :=
  c.toJSON code (errorBody message)

/-! ## Router (router.go): route table, dispatch, middleware chain. -/

/-- `HandlerFunc`: `func(*Context) error` as a state transformer
returning the mutated context and the optional error. -/
abbrev HandlerFunc := Context → Context × Option String

/-- `MiddlewareFunc`: `func(HandlerFunc) HandlerFunc`. -/
abbrev MiddlewareFunc := HandlerFunc → HandlerFunc

/-- `Route`: the fields dispatch reads (metadata is opaque to it). -/
structure Route where
  method : String
  path : String
  handler : HandlerFunc
  middlewares : List MiddlewareFunc

/-- The fields of `Router` that dispatch reads. -/
structure Router where
  routes : List Route
  middlewares : List MiddlewareFunc
  notFound : Option HandlerFunc
  methodNotAllowed : Option HandlerFunc

/-- Does a route match a request?  `findRoute`'s per-route test:
method equality and pattern match. -/
def routeMatches (rt : Route) (method path : String) : Bool :=
  rt.method == method && (matchPath rt.path path).1

/-- `findRoute` from router.go: linear scan in registration order,
skip on method mismatch, return the first pattern match. -/
def findRoute : List Route → String → String →
    Option (Route × List (String × String))
  | [], _, _ => none
  | route :: rest, method, path =>
      if route.method ≠ method then findRoute rest method path
      else
        let m := matchPath route.path path
        if m.1 then some (route, m.2) else findRoute rest method path

/-- `buildMiddlewareChain` from router.go: wrap the route handler in the
route-scoped middlewares from last to first, then in the global
middlewares from last to first. -/
def buildMiddlewareChain (r : Router) (route : Route) : HandlerFunc :=
  r.middlewares.foldr (fun m h => m h)
    (route.middlewares.foldr (fun m h => m h) route.handler)

/-- `handleNoMatch` from router.go: a second linear scan ignoring the
method decides 405 (custom handler or default body) versus 404. -/
def handleNoMatch (r : Router) (c : Context) (reqPath : String) :
    Context × Option String :=
  if r.routes.any (fun route => (matchPath route.path reqPath).1) then
    match r.methodNotAllowed with
    | some h => h c
    | none => c.error 405 "Method Not Allowed"
  else
    match r.notFound with
    | some h => h c
    | none => c.error 404 "Not Found"

/-- `handleRequest` from router.go: resolve the route, set the captured
params on the context, build the chain and run it. -/
def handleRequest (r : Router) (c : Context) (req : Request) :
    Context × Option String :=
  match findRoute r.routes req.method req.path with
  | none => handleNoMatch r c req.path
  | some (route, params) =>
      buildMiddlewareChain r route { c with params := params }

/-! ## Event pipeline (events.go). -/

/-- `EventHandler`: `func(ctx *Context)` mutating the context. -/
abbrev EventHandler := Context → Context

/-- `EventPipeline`: `map[EventType][]EventHandler`. -/
structure EventPipeline where
  handlers : List (String × List EventHandler)

def EventServerStart : String := "server_start"
def EventServerStop : String := "server_stop"

/-- Reading `p.handlers[event]`: a missing key is the nil slice. -/
def lookupHandlers (p : EventPipeline) (event : String) :
    List EventHandler :=
  (mapGet p.handlers event).getD []

/-- `EventPipeline.On`: append a handler to the event's list. -/
def EventPipeline.on (p : EventPipeline) (event : String)
    (h : EventHandler) : EventPipeline :=
  ⟨mapSet p.handlers event (lookupHandlers p event ++ [h])⟩

/-- `EventPipeline.Emit` with trace semantics: the loop body runs
`handler(ctx)` only under `ctx != nil`; the result records, in order,
the handlers actually invoked, and the final context state after
threading it through them. -/
def EventPipeline.emit (p : EventPipeline) (event : String)
    (ctx : Option Context) : List EventHandler × Option Context :=
  (lookupHandlers p event).foldl
    (fun acc h =>
      match acc.2 with
      | none => acc
      | some c => (acc.1 ++ [h], some (h c)))
    ([], ctx)

/-- `EventPipeline.EmitAsync` with trace semantics: the list of handlers
the loop spawns (each under the same `ctx != nil` guard); their
concurrent execution is not modelled. -/
def EventPipeline.emitAsync (p : EventPipeline) (event : String)
    (ctx : Option Context) : List EventHandler :=
  (lookupHandlers p event).foldl
    (fun acc h => if ctx.isSome then acc ++ [h] else acc) []

/-- `EventPipeline.OnServerStart`: registers a wrapper around a `func()`
callback; the wrapper ignores its context argument (the callback's own
effects cannot touch the pipeline or context state). -/
def EventPipeline.onServerStart (p : EventPipeline) (_f : Unit → Unit) :
    EventPipeline :=
  p.on EventServerStart (fun ctx => ctx)

/-- `EventPipeline.OnServerStop`: as `OnServerStart`, for
`server_stop`. -/
def EventPipeline.onServerStop (p : EventPipeline) (_f : Unit → Unit) :
    EventPipeline :=
  p.on EventServerStop (fun ctx => ctx)

/-- The emission performed by `Server.Run` (server.go):
`s.router.pipeline.Emit(EventServerStart, nil)`. -/
def serverRunStartEmit (p : EventPipeline) :
    List EventHandler × Option Context :=
  p.emit EventServerStart none

/-- The emission performed by `Server.Shutdown` (server.go):
`s.router.pipeline.Emit(EventServerStop, nil)`. -/
def serverShutdownStopEmit (p : EventPipeline) :
    List EventHandler × Option Context :=
  p.emit EventServerStop none

/-! ## Room hub (hub.go): `rooms map[string]map[string]bool`.
A room's member set is an insertion-ordered duplicate-free list; the
outer map is an association list with first-occurrence read/write
discipline, matching Go's unique-key maps on all reachable states. -/

abbrev Hub := List (String × List String)

/-- `BaseHub.addToRoom`: create the room set if absent, then add the
client (a set insert: re-adding an existing member changes nothing). -/
def addToRoom (clientID room : String) : Hub → Hub
  | [] => [(room, [clientID])]
  | (r, cs) :: rest =>
      if r = room then
        (r, if clientID ∈ cs then cs else cs ++ [clientID]) :: rest
      else (r, cs) :: addToRoom clientID room rest

/-- `BaseHub.removeFromRoom`: delete the client from the room's set if
the room exists; drop the room entry when the set becomes empty. -/
def removeFromRoom (clientID room : String) : Hub → Hub
  | [] => []
  | (r, cs) :: rest =>
      if r = room then
        let cs' := cs.erase clientID
        if cs'.isEmpty then rest else (r, cs') :: rest
      else (r, cs) :: removeFromRoom clientID room rest

/-- `BaseHub.removeFromAllRooms`: delete the client from every room,
dropping rooms that become empty. -/
def removeFromAllRooms (clientID : String) (h : Hub) : Hub :=
  h.filterMap (fun p =>
    let cs' := p.2.erase clientID
    if cs'.isEmpty then none else some (p.1, cs'))

/-- `BaseHub.getRoomClientIDs`: all client IDs in a room (nil slice for
a missing room). -/
def getRoomClientIDs (room : String) (h : Hub) : List String :=
  (mapGet h room).getD []

/-- `BaseHub.roomCount`: `len(h.rooms[room])`, `0` when absent. -/
def roomCount (room : String) (h : Hub) : Nat :=
  match mapGet h room with
  | some cs => cs.length
  | none => 0

/-- Room membership as observed through `getRoomClientIDs`. -/
def memberOf (h : Hub) (clientID room : String) : Bool :=
  (getRoomClientIDs room h).contains clientID

/-- One hub mutation. -/
inductive HubOp : Type
  | join (clientID room : String)
  | leave (clientID room : String)
  | leaveAll (clientID : String)
deriving DecidableEq

def applyOp (h : Hub) : HubOp → Hub
  | .join c r => addToRoom c r h
  | .leave c r => removeFromRoom c r h
  | .leaveAll c => removeFromAllRooms c h

/-- Run a sequence of operations from the fresh hub (`newBaseHub`). -/
def runOps (ops : List HubOp) : Hub :=
  ops.foldl applyOp []

/-- Modelled from the spec: "membership is always exactly the set
materialized by the prior joins minus leaves" — whether `clientID` is a
member of `room` after `ops`, computed from the operation history
alone. -/
def specMember (ops : List HubOp) (clientID room : String) : Bool :=
  ops.foldl
    (fun b op =>
      match op with
      | .join c r => if c = clientID ∧ r = room then true else b
      | .leave c r => if c = clientID ∧ r = room then false else b
      | .leaveAll c => if c = clientID then false else b)
    false

/-- Well-formedness of a hub state: room keys are distinct (Go map),
member lists are duplicate-free (Go set) and no room entry is empty
(empty rooms are deleted eagerly). -/
def HubWF (h : Hub) : Prop :=
  (h.map Prod.fst).Nodup ∧ (∀ p ∈ h, p.2.Nodup) ∧ (∀ p ∈ h, p.2 ≠ [])

/-! ## Observation helpers and concrete sample values -/

/-- Append entries to a context's response-body log. -/
def appendBody (c : Context) (l : List String) : Context :=
  { c with writer := { c.writer with body := c.writer.body ++ l } }

/-- `appendBody` on a handler result, leaving the error untouched. -/
def appendBodyPair (r : Context × Option String) (l : List String) :
    Context × Option String :=
  (appendBody r.1 l, r.2)

/-- A logging middleware: it writes `before:name` to the response
writer, invokes the next link, then writes `after:name`; used to
observe middleware execution order. -/
def traceMw (name : String) : MiddlewareFunc := fun next c =>
  let r := next { c with writer := c.writer.write ("before:" ++ name) }
  ({ r.1 with writer := r.1.writer.write ("after:" ++ name) }, r.2)

/-- A logging route handler: writes its name to the response writer. -/
def traceHandler (name : String) : HandlerFunc :=
  fun c => ({ c with writer := c.writer.write name }, none)

/-- A handler that does nothing and reports no error. -/
def nopHandler : HandlerFunc := fun c => (c, none)

/-- A fresh context bound to a `GET /a` request. -/
def sampleContext : Context :=
  { writer := {}
    request := { method := "GET", path := "/a" }
    params := []
    statusCode := 200
    written := false
    keys := []
    ws := none
    sse := none
    pipeline := 0 }

/-- A concrete `GET /a` route. -/
def routeGA : Route :=
  { method := "GET", path := "/a", handler := nopHandler,
    middlewares := [] }

/-- A second `GET /a` route with a different handler. -/
def routeGA2 : Route :=
  { method := "GET", path := "/a", handler := traceHandler "second",
    middlewares := [] }

/-- A concrete `POST /b` route (never overlaps `routeGA`). -/
def routePB : Route :=
  { method := "POST", path := "/b", handler := nopHandler,
    middlewares := [] }

/-- A router with two identical `GET /a` registrations. -/
def sampleRouter : Router :=
  { routes := [routeGA, routeGA2], middlewares := [], notFound := none,
    methodNotAllowed := none }

/-- A concrete `GET /items` route. -/
def routeItems : Route :=
  { method := "GET", path := "/items", handler := nopHandler,
    middlewares := [] }

/-- A router whose only route is `GET /items`, with default error
handlers. -/
def routerItems : Router :=
  { routes := [routeItems], middlewares := [], notFound := none,
    methodNotAllowed := none }

/-! ## Map lemmas -/

theorem mapGet_mapSet_self {α : Type} (ps : List (String × α))
    (k : String) (v : α) : mapGet (mapSet ps k v) k = some v := by
  induction ps with
  | nil => simp [mapSet, mapGet]
  | cons p rest ih =>
      obtain ⟨k', v'⟩ := p
      by_cases h : k' = k <;> simp [mapSet, mapGet, h, ih]

theorem mapGet_mapSet_ne {α : Type} (ps : List (String × α))
    (k k' : String) (v : α) (h : k' ≠ k) :
    mapGet (mapSet ps k v) k' = mapGet ps k' := by
  have h' : ¬ k = k' := fun hh => h hh.symm
  induction ps with
  | nil => simp [mapSet, mapGet, h']
  | cons p rest ih =>
      obtain ⟨k₀, v₀⟩ := p
      by_cases h₀ : k₀ = k
      · subst h₀; simp [mapSet, mapGet, h']
      · by_cases h₁ : k₀ = k' <;> simp [mapSet, mapGet, h₀, h₁, h, ih]

/-! ## findRoute lemmas -/

theorem findRoute_nil (m p : String) : findRoute [] m p = none := rfl

theorem findRoute_cons (rt : Route) (rest : List Route) (m p : String) :
    findRoute (rt :: rest) m p =
      if routeMatches rt m p then some (rt, (matchPath rt.path p).2)
      else findRoute rest m p := by
  by_cases hm : rt.method = m
  · by_cases hp : (matchPath rt.path p).1
    · simp [findRoute, routeMatches, hm, hp]
    · simp [findRoute, routeMatches, hm, hp]
  · simp [findRoute, routeMatches, hm]

/-- `findRoute` is `List.find?` on the route table: the first route (in
registration order) whose method and pattern both match wins, paired
with its captured params. -/
theorem findRoute_eq_find? (routes : List Route) (m p : String) :
    findRoute routes m p =
      (routes.find? (fun rt => routeMatches rt m p)).map
        (fun rt => (rt, (matchPath rt.path p).2)) := by
  induction routes with
  | nil => rfl
  | cons rt rest ih =>
      rw [findRoute_cons]
      by_cases h : routeMatches rt m p <;> simp [List.find?_cons, h, ih]

theorem findRoute_append_of_no_match (l₁ l₂ : List Route) (m p : String)
    (h : ∀ rt ∈ l₁, routeMatches rt m p = false) :
    findRoute (l₁ ++ l₂) m p = findRoute l₂ m p := by
  induction l₁ with
  | nil => simp
  | cons rt rest ih =>
      have hrt : routeMatches rt m p = false := h rt (by simp)
      rw [List.cons_append, findRoute_cons, if_neg (by simp [hrt])]
      exact ih (fun rt' h' => h rt' (by simp [h']))

theorem findRoute_eq_none_of_no_match (routes : List Route) (m p : String)
    (h : ∀ rt ∈ routes, routeMatches rt m p = false) :
    findRoute routes m p = none := by
  have := findRoute_append_of_no_match routes [] m p h
  simpa using this

/-! ## Event-pipeline lemmas -/

theorem emit_loop_none (hs : List EventHandler)
    (acc : List EventHandler) :
    hs.foldl
      (fun acc h =>
        match acc.2 with
        | none => acc
        | some c => (acc.1 ++ [h], some (h c)))
      (acc, (none : Option Context)) = (acc, none) := by
  induction hs generalizing acc with
  | nil => rfl
  | cons h rest ih => simp only [List.foldl_cons]; exact ih acc

theorem emit_loop_some (hs : List EventHandler)
    (acc : List EventHandler) (c : Context) :
    hs.foldl
      (fun acc h =>
        match acc.2 with
        | none => acc
        | some c => (acc.1 ++ [h], some (h c)))
      (acc, some c) =
      (acc ++ hs, some (hs.foldl (fun x h => h x) c)) := by
  induction hs generalizing acc c with
  | nil => simp
  | cons h rest ih => simpa using ih (acc ++ [h]) (h c)

/-- `Emit` with a nil context invokes no handler and returns no state. -/
theorem emit_none (p : EventPipeline) (ev : String) :
    p.emit ev none = ([], none) :=
  emit_loop_none (lookupHandlers p ev) []

/-- `Emit` with a non-nil context invokes exactly the registered
handlers, in order, threading the context through them. -/
theorem emit_some (p : EventPipeline) (ev : String) (c : Context) :
    p.emit ev (some c) =
      (lookupHandlers p ev,
       some ((lookupHandlers p ev).foldl (fun x h => h x) c)) := by
  have := emit_loop_some (lookupHandlers p ev) [] c
  simpa [EventPipeline.emit] using this

/-- `EmitAsync` with a nil context spawns no handler. -/
theorem emitAsync_none (p : EventPipeline) (ev : String) :
    p.emitAsync ev none = [] := by
  have : ∀ (hs : List EventHandler),
      hs.foldl
        (fun (acc : List EventHandler) h =>
          if (none : Option Context).isSome then acc ++ [h] else acc)
        [] = [] := by
    intro hs
    induction hs with
    | nil => rfl
    | cons h rest ih => simp only [List.foldl_cons, Option.isSome_none,
        Bool.false_eq_true, if_false]; exact ih
  exact this (lookupHandlers p ev)

/-- `On` appends the new handler at the end of the kind's list. -/
theorem lookupHandlers_on_self (p : EventPipeline) (ev : String)
    (h : EventHandler) :
    lookupHandlers (p.on ev h) ev = lookupHandlers p ev ++ [h] := by
  simp [EventPipeline.on, lookupHandlers, mapGet_mapSet_self]

/-! ## Middleware-chain trace lemmas -/

theorem appendBody_nil (c : Context) : appendBody c [] = c := by
  simp [appendBody]

theorem appendBody_append (c : Context) (l₁ l₂ : List String) :
    appendBody (appendBody c l₁) l₂ = appendBody c (l₁ ++ l₂) := by
  simp [appendBody]

theorem traceChain_foldr (names : List String) (h : HandlerFunc)
    (c : Context) :
    ((names.map traceMw).foldr (fun m k => m k) h) c =
      appendBodyPair
        (h (appendBody c (names.map (fun n => "before:" ++ n))))
        ((names.map (fun n => "after:" ++ n)).reverse) := by
  induction names generalizing c with
  | nil =>
      simp [appendBody_nil, appendBodyPair]
  | cons n ns ih =>
      have hstep :
          ((List.map traceMw (n :: ns)).foldr (fun m k => m k) h) c =
            traceMw n ((ns.map traceMw).foldr (fun m k => m k) h) c := by
        rfl
      rw [hstep]
      show
        (let r := ((ns.map traceMw).foldr (fun m k => m k) h)
            { c with writer := c.writer.write ("before:" ++ n) }
         ({ r.1 with writer := r.1.writer.write ("after:" ++ n) }, r.2)) = _
      have hwrite :
          ({ c with writer := c.writer.write ("before:" ++ n) } : Context) =
            appendBody c ["before:" ++ n] := by
        simp [appendBody, Writer.write]
      rw [hwrite, ih]
      simp [appendBodyPair, appendBody, Writer.write, List.append_assoc]

/-! ## Room-hub lemmas -/

theorem mapGet_eq_none_of_not_mem_keys {α : Type}
    (ps : List (String × α)) (k : String)
    (h : k ∉ ps.map Prod.fst) : mapGet ps k = none := by
  induction ps with
  | nil => rfl
  | cons p rest ih =>
      obtain ⟨k₀, v₀⟩ := p
      have hne : ¬ k₀ = k := by
        intro hk; exact h (by simp [hk])
      simp only [mapGet, hne, if_false]
      exact ih (fun hk => h (by simp [hk]))

theorem mapGet_mem {α : Type} (ps : List (String × α)) (k : String)
    (v : α) (h : mapGet ps k = some v) : (k, v) ∈ ps := by
  induction ps with
  | nil => simp [mapGet] at h
  | cons p rest ih =>
      obtain ⟨k₀, v₀⟩ := p
      by_cases hk : k₀ = k
      · subst hk
        simp [mapGet] at h
        simp [h]
      · simp only [mapGet, hk, if_false] at h
        exact List.mem_cons_of_mem _ (ih h)

theorem mapGet_eq_none_iff {α : Type} (ps : List (String × α))
    (k : String) : mapGet ps k = none ↔ k ∉ ps.map Prod.fst := by
  constructor
  · intro h hk
    induction ps with
    | nil => simp at hk
    | cons p rest ih =>
        obtain ⟨k₀, v₀⟩ := p
        by_cases hk₀ : k₀ = k
        · simp [mapGet, hk₀] at h
        · simp only [mapGet, hk₀, if_false] at h
          exact ih h (by simpa [Ne.symm hk₀] using hk)
  · exact mapGet_eq_none_of_not_mem_keys ps k

theorem mapGet_addToRoom_self (cID r : String) (h : Hub) :
    mapGet (addToRoom cID r h) r =
      some (if cID ∈ getRoomClientIDs r h then getRoomClientIDs r h
        else getRoomClientIDs r h ++ [cID]) := by
  induction h with
  | nil => simp [addToRoom, mapGet, getRoomClientIDs]
  | cons p rest ih =>
      obtain ⟨k, cs⟩ := p
      by_cases hk : k = r
      · subst hk
        simp [addToRoom, mapGet, getRoomClientIDs]
      · simp [addToRoom, mapGet, getRoomClientIDs, hk, ih]

theorem mapGet_addToRoom_ne (cID r r' : String) (h : Hub)
    (hne : r' ≠ r) :
    mapGet (addToRoom cID r h) r' = mapGet h r' := by
  induction h with
  | nil => simp [addToRoom, mapGet, Ne.symm hne]
  | cons p rest ih =>
      obtain ⟨k, cs⟩ := p
      by_cases hk : k = r
      · subst hk
        simp [addToRoom, mapGet, Ne.symm hne]
      · simp [addToRoom, mapGet, hk, ih]

theorem mapGet_removeFromRoom_ne (cID r r' : String) (h : Hub)
    (hne : r' ≠ r) :
    mapGet (removeFromRoom cID r h) r' = mapGet h r' := by
  induction h with
  | nil => rfl
  | cons p rest ih =>
      obtain ⟨k, cs⟩ := p
      by_cases hk : k = r
      · subst hk
        by_cases he : (cs.erase cID).isEmpty <;>
          simp [removeFromRoom, mapGet, Ne.symm hne, he]
      · simp [removeFromRoom, mapGet, hk, ih]

theorem keysNodup_cons {α : Type} (k : String) (v : α)
    (rest : List (String × α))
    (h : (((k, v) :: rest).map Prod.fst).Nodup) :
    k ∉ rest.map Prod.fst ∧ (rest.map Prod.fst).Nodup := by
  rw [List.map_cons, List.nodup_cons] at h
  exact h

theorem mapGet_removeFromRoom_self (cID r : String) (h : Hub)
    (hnodup : (h.map Prod.fst).Nodup) :
    mapGet (removeFromRoom cID r h) r =
      match mapGet h r with
      | none => none
      | some cs =>
          if (cs.erase cID).isEmpty then none else some (cs.erase cID) := by
  induction h with
  | nil => rfl
  | cons p rest ih =>
      obtain ⟨k, cs⟩ := p
      obtain ⟨hnm, hrest⟩ := keysNodup_cons k cs rest hnodup
      by_cases hk : k = r
      · subst hk
        by_cases he : (cs.erase cID).isEmpty
        · simp [removeFromRoom, mapGet, he,
            mapGet_eq_none_of_not_mem_keys rest k hnm]
        · simp [removeFromRoom, mapGet, he]
      · simp [removeFromRoom, mapGet, hk, ih hrest]

theorem removeFromAllRooms_cons (cID k : String) (cs : List String)
    (rest : Hub) :
    removeFromAllRooms cID ((k, cs) :: rest) =
      if (cs.erase cID).isEmpty then removeFromAllRooms cID rest
      else (k, cs.erase cID) :: removeFromAllRooms cID rest := by
  simp only [removeFromAllRooms, List.filterMap_cons]
  by_cases he : (cs.erase cID).isEmpty
  · rw [if_pos he, if_pos he]
  · rw [if_neg he, if_neg he]

theorem mapGet_removeFromAllRooms (cID r : String) (h : Hub)
    (hnodup : (h.map Prod.fst).Nodup) :
    mapGet (removeFromAllRooms cID h) r =
      match mapGet h r with
      | none => none
      | some cs =>
          if (cs.erase cID).isEmpty then none else some (cs.erase cID) := by
  induction h with
  | nil => rfl
  | cons p rest ih =>
      obtain ⟨k, cs⟩ := p
      obtain ⟨hnm, hrest⟩ := keysNodup_cons k cs rest hnodup
      rw [removeFromAllRooms_cons]
      by_cases hk : k = r
      · subst hk
        have hres : mapGet rest k = none :=
          mapGet_eq_none_of_not_mem_keys rest k hnm
        by_cases he : (cs.erase cID).isEmpty
        · rw [if_pos he, ih hrest, hres]
          simp [mapGet, he]
        · rw [if_neg he]
          simp [mapGet, he]
      · by_cases he : (cs.erase cID).isEmpty
        · rw [if_pos he, ih hrest]
          simp [mapGet, hk]
        · rw [if_neg he]
          simp [mapGet, hk, ih hrest]

theorem keys_addToRoom (cID r : String) (h : Hub) :
    (addToRoom cID r h).map Prod.fst =
      if r ∈ h.map Prod.fst then h.map Prod.fst
      else h.map Prod.fst ++ [r] := by
  induction h with
  | nil => simp [addToRoom]
  | cons p rest ih =>
      obtain ⟨k, cs⟩ := p
      by_cases hk : k = r
      · subst hk
        simp [addToRoom]
      · simp only [addToRoom, if_neg hk, List.map_cons, ih,
          List.mem_cons]
        have : ¬ r = k := fun hh => hk hh.symm
        by_cases hr : r ∈ rest.map Prod.fst <;> simp [hr, this]

theorem keys_removeFromRoom_sublist (cID r : String) (h : Hub) :
    List.Sublist ((removeFromRoom cID r h).map Prod.fst)
      (h.map Prod.fst) := by
  induction h with
  | nil => simp [removeFromRoom]
  | cons p rest ih =>
      obtain ⟨k, cs⟩ := p
      by_cases hk : k = r
      · subst hk
        by_cases he : (cs.erase cID).isEmpty
        · simp only [removeFromRoom, he, if_pos, if_true]
          exact (List.sublist_cons_self _ _)
        · simp [removeFromRoom, he]
      · simp only [removeFromRoom, hk, if_false, List.map_cons]
        exact List.Sublist.cons₂ _ ih

theorem keys_removeFromAllRooms_sublist (cID : String) (h : Hub) :
    List.Sublist ((removeFromAllRooms cID h).map Prod.fst)
      (h.map Prod.fst) := by
  induction h with
  | nil => simp [removeFromAllRooms]
  | cons p rest ih =>
      obtain ⟨k, cs⟩ := p
      rw [removeFromAllRooms_cons]
      by_cases he : (cs.erase cID).isEmpty
      · rw [if_pos he]
        exact ih.trans (List.sublist_cons_self _ _)
      · rw [if_neg he]
        simpa using List.Sublist.cons₂ k ih

theorem hubWF_nil : HubWF [] := by
  refine ⟨by simp, by simp, by simp⟩

theorem addToRoom_values (cID r : String) (h : Hub)
    (hv : ∀ p ∈ h, p.2.Nodup ∧ p.2 ≠ []) :
    ∀ p ∈ addToRoom cID r h, p.2.Nodup ∧ p.2 ≠ [] := by
  induction h with
  | nil =>
      intro p hp
      simp [addToRoom] at hp
      simp [hp]
  | cons q rest ih =>
      obtain ⟨k, cs⟩ := q
      intro p hp
      by_cases hk : k = r
      · simp only [addToRoom, if_pos hk] at hp
        rcases List.mem_cons.mp hp with hp | hp
        · subst hp
          have hq := hv (k, cs) (by simp)
          by_cases hc : cID ∈ cs
          · simpa [hc] using hq
          · refine ⟨?_, by simp [hc]⟩
            simp only [hc, if_false]
            refine List.nodup_append.mpr ⟨hq.1, by simp, ?_⟩
            intro x hx hx'
            simp only [List.mem_singleton] at hx'
            subst hx'
            exact hc hx
        · exact hv p (List.mem_cons_of_mem _ hp)
      · simp only [addToRoom, if_neg hk] at hp
        rcases List.mem_cons.mp hp with hp | hp
        · subst hp
          exact hv (k, cs) (by simp)
        · exact ih (fun q hq => hv q (List.mem_cons_of_mem _ hq)) p hp

theorem removeFromRoom_values (cID r : String) (h : Hub)
    (hv : ∀ p ∈ h, p.2.Nodup ∧ p.2 ≠ []) :
    ∀ p ∈ removeFromRoom cID r h, p.2.Nodup ∧ p.2 ≠ [] := by
  induction h with
  | nil =>
      intro p hp
      simp [removeFromRoom] at hp
  | cons q rest ih =>
      obtain ⟨k, cs⟩ := q
      intro p hp
      by_cases hk : k = r
      · simp only [removeFromRoom, if_pos hk] at hp
        by_cases he : (cs.erase cID).isEmpty
        · rw [if_pos he] at hp
          exact hv p (List.mem_cons_of_mem _ hp)
        · rw [if_neg he] at hp
          rcases List.mem_cons.mp hp with hp | hp
          · subst hp
            refine ⟨(hv (k, cs) (by simp)).1.erase cID, ?_⟩
            simpa [List.isEmpty_iff] using he
          · exact hv p (List.mem_cons_of_mem _ hp)
      · simp only [removeFromRoom, if_neg hk] at hp
        rcases List.mem_cons.mp hp with hp | hp
        · subst hp
          exact hv (k, cs) (by simp)
        · exact ih (fun q hq => hv q (List.mem_cons_of_mem _ hq)) p hp

theorem removeFromAllRooms_values (cID : String) (h : Hub)
    (hv : ∀ p ∈ h, p.2.Nodup ∧ p.2 ≠ []) :
    ∀ p ∈ removeFromAllRooms cID h, p.2.Nodup ∧ p.2 ≠ [] := by
  induction h with
  | nil =>
      intro p hp
      simp [removeFromAllRooms] at hp
  | cons q rest ih =>
      obtain ⟨k, cs⟩ := q
      intro p hp
      rw [removeFromAllRooms_cons] at hp
      by_cases he : (cs.erase cID).isEmpty
      · rw [if_pos he] at hp
        exact ih (fun q hq => hv q (List.mem_cons_of_mem _ hq)) p hp
      · rw [if_neg he] at hp
        rcases List.mem_cons.mp hp with hp | hp
        · subst hp
          refine ⟨(hv (k, cs) (by simp)).1.erase cID, ?_⟩
          simpa [List.isEmpty_iff] using he
        · exact ih (fun q hq => hv q (List.mem_cons_of_mem _ hq)) p hp

theorem hubWF_addToRoom (cID r : String) (h : Hub) (hwf : HubWF h) :
    HubWF (addToRoom cID r h) := by
  obtain ⟨hkeys, hnodup, hne⟩ := hwf
  have hv : ∀ p ∈ h, p.2.Nodup ∧ p.2 ≠ [] :=
    fun p hp => ⟨hnodup p hp, hne p hp⟩
  have hv' := addToRoom_values cID r h hv
  refine ⟨?_, fun p hp => (hv' p hp).1, fun p hp => (hv' p hp).2⟩
  rw [keys_addToRoom]
  by_cases hr : r ∈ h.map Prod.fst
  · simpa [hr] using hkeys
  · rw [if_neg hr]
    refine List.nodup_append.mpr ⟨hkeys, by simp, ?_⟩
    intro x hx hx'
    simp only [List.mem_singleton] at hx'
    subst hx'
    exact hr hx

theorem hubWF_removeFromRoom (cID r : String) (h : Hub)
    (hwf : HubWF h) : HubWF (removeFromRoom cID r h) := by
  obtain ⟨hkeys, hnodup, hne⟩ := hwf
  have hv : ∀ p ∈ h, p.2.Nodup ∧ p.2 ≠ [] :=
    fun p hp => ⟨hnodup p hp, hne p hp⟩
  have hv' := removeFromRoom_values cID r h hv
  exact ⟨hkeys.sublist (keys_removeFromRoom_sublist cID r h),
    fun p hp => (hv' p hp).1, fun p hp => (hv' p hp).2⟩

theorem hubWF_removeFromAllRooms (cID : String) (h : Hub)
    (hwf : HubWF h) : HubWF (removeFromAllRooms cID h) := by
  obtain ⟨hkeys, hnodup, hne⟩ := hwf
  have hv : ∀ p ∈ h, p.2.Nodup ∧ p.2 ≠ [] :=
    fun p hp => ⟨hnodup p hp, hne p hp⟩
  have hv' := removeFromAllRooms_values cID h hv
  exact ⟨hkeys.sublist (keys_removeFromAllRooms_sublist cID h),
    fun p hp => (hv' p hp).1, fun p hp => (hv' p hp).2⟩

theorem hubWF_applyOp (h : Hub) (op : HubOp) (hwf : HubWF h) :
    HubWF (applyOp h op) := by
  cases op with
  | join c r => exact hubWF_addToRoom c r h hwf
  | leave c r => exact hubWF_removeFromRoom c r h hwf
  | leaveAll c => exact hubWF_removeFromAllRooms c h hwf

theorem hubWF_foldl (ops : List HubOp) (h : Hub) (hwf : HubWF h) :
    HubWF (ops.foldl applyOp h) := by
  induction ops generalizing h with
  | nil => exact hwf
  | cons op rest ih =>
      exact ih (applyOp h op) (hubWF_applyOp h op hwf)

theorem hubWF_runOps (ops : List HubOp) : HubWF (runOps ops) :=
  hubWF_foldl ops [] hubWF_nil

theorem hubWF_tail (p : String × List String) (h : Hub)
    (hwf : HubWF (p :: h)) : HubWF h := by
  obtain ⟨hkeys, hnodup, hne⟩ := hwf
  rw [List.map_cons, List.nodup_cons] at hkeys
  exact ⟨hkeys.2, fun q hq => hnodup q (List.mem_cons_of_mem _ hq),
    fun q hq => hne q (List.mem_cons_of_mem _ hq)⟩

theorem memberOf_cons (k : String) (cs : List String) (rest : Hub)
    (c r : String) :
    memberOf ((k, cs) :: rest) c r =
      if k = r then cs.contains c else memberOf rest c r := by
  by_cases hk : k = r <;> simp [memberOf, getRoomClientIDs, mapGet, hk]

theorem memberOf_nil (c r : String) : memberOf [] c r = false := rfl

theorem getRoomClientIDs_addToRoom_self (cID r : String) (h : Hub) :
    getRoomClientIDs r (addToRoom cID r h) =
      if cID ∈ getRoomClientIDs r h then getRoomClientIDs r h
      else getRoomClientIDs r h ++ [cID] := by
  simp [getRoomClientIDs, mapGet_addToRoom_self]

theorem memberOf_addToRoom (cID room : String) (h : Hub) (c r : String) :
    memberOf (addToRoom cID room h) c r =
      if c = cID ∧ r = room then true else memberOf h c r := by
  by_cases hr : r = room
  · subst hr
    rw [show memberOf (addToRoom cID r h) c r =
        (getRoomClientIDs r (addToRoom cID r h)).contains c from rfl,
      getRoomClientIDs_addToRoom_self]
    by_cases hc : c = cID
    · subst hc
      by_cases hm : c ∈ getRoomClientIDs r h <;> simp [hm]
    · by_cases hm : cID ∈ getRoomClientIDs r h <;>
        simp [hm, hc, memberOf]
  · have : ¬ (c = cID ∧ r = room) := fun hh => hr hh.2
    simp only [this, if_false, memberOf, getRoomClientIDs,
      mapGet_addToRoom_ne cID room r h hr]

theorem mapGet_removeFromRoom_self_none (cID r : String) (h : Hub)
    (hnodup : (h.map Prod.fst).Nodup) (hm : mapGet h r = none) :
    mapGet (removeFromRoom cID r h) r = none := by
  rw [mapGet_removeFromRoom_self cID r h hnodup, hm]

theorem mapGet_removeFromRoom_self_some (cID r : String) (h : Hub)
    (cs : List String) (hnodup : (h.map Prod.fst).Nodup)
    (hm : mapGet h r = some cs) :
    mapGet (removeFromRoom cID r h) r =
      if (cs.erase cID).isEmpty then none else some (cs.erase cID) := by
  rw [mapGet_removeFromRoom_self cID r h hnodup, hm]

theorem mapGet_removeFromAllRooms_none (cID r : String) (h : Hub)
    (hnodup : (h.map Prod.fst).Nodup) (hm : mapGet h r = none) :
    mapGet (removeFromAllRooms cID h) r = none := by
  rw [mapGet_removeFromAllRooms cID r h hnodup, hm]

theorem mapGet_removeFromAllRooms_some (cID r : String) (h : Hub)
    (cs : List String) (hnodup : (h.map Prod.fst).Nodup)
    (hm : mapGet h r = some cs) :
    mapGet (removeFromAllRooms cID h) r =
      if (cs.erase cID).isEmpty then none else some (cs.erase cID) := by
  rw [mapGet_removeFromAllRooms cID r h hnodup, hm]

theorem memberOf_removeFromRoom (cID room : String) (h : Hub)
    (c r : String) (hwf : HubWF h) :
    memberOf (removeFromRoom cID room h) c r =
      if c = cID ∧ r = room then false else memberOf h c r := by
  by_cases hr : r = room
  · subst hr
    rw [show memberOf (removeFromRoom cID r h) c r =
        ((mapGet (removeFromRoom cID r h) r).getD []).contains c from rfl]
    cases hm : mapGet h r with
    | none =>
        rw [mapGet_removeFromRoom_self_none cID r h hwf.1 hm]
        by_cases hc : c = cID <;>
          simp [hc, memberOf, getRoomClientIDs, hm]
    | some cs =>
        rw [mapGet_removeFromRoom_self_some cID r h cs hwf.1 hm]
        have hcs : (r, cs) ∈ h := mapGet_mem h r cs hm
        have hnodup : cs.Nodup := hwf.2.1 (r, cs) hcs
        by_cases he : (cs.erase cID).isEmpty
        · have hnil : cs.erase cID = [] := by
            simpa [List.isEmpty_iff] using he
          rw [if_pos he]
          by_cases hc : c = cID
          · simp [hc]
          · have : c ∉ cs := by
              intro hmem
              have : c ∈ cs.erase cID :=
                (List.mem_erase_of_ne hc).mpr hmem
              simp [hnil] at this
            simp [hc, memberOf, getRoomClientIDs, hm, this]
        · rw [if_neg he]
          by_cases hc : c = cID
          · subst hc
            simp [hnodup.not_mem_erase, memberOf, getRoomClientIDs, hm]
          · simp [hc, memberOf, getRoomClientIDs, hm,
              List.mem_erase_of_ne hc]
  · have : ¬ (c = cID ∧ r = room) := fun hh => hr hh.2
    simp only [this, if_false, memberOf, getRoomClientIDs,
      mapGet_removeFromRoom_ne cID room r h hr]

theorem memberOf_removeFromAllRooms (cID : String) (h : Hub)
    (c r : String) (hwf : HubWF h) :
    memberOf (removeFromAllRooms cID h) c r =
      if c = cID then false else memberOf h c r := by
  rw [show memberOf (removeFromAllRooms cID h) c r =
      ((mapGet (removeFromAllRooms cID h) r).getD []).contains c from rfl]
  cases hm : mapGet h r with
  | none =>
      rw [mapGet_removeFromAllRooms_none cID r h hwf.1 hm]
      by_cases hc : c = cID <;>
        simp [hc, memberOf, getRoomClientIDs, hm]
  | some cs =>
      rw [mapGet_removeFromAllRooms_some cID r h cs hwf.1 hm]
      have hcs : (r, cs) ∈ h := mapGet_mem h r cs hm
      have hnodup : cs.Nodup := hwf.2.1 (r, cs) hcs
      by_cases he : (cs.erase cID).isEmpty
      · have hnil : cs.erase cID = [] := by
          simpa [List.isEmpty_iff] using he
        rw [if_pos he]
        by_cases hc : c = cID
        · simp [hc]
        · have : c ∉ cs := by
            intro hmem
            have : c ∈ cs.erase cID :=
              (List.mem_erase_of_ne hc).mpr hmem
            simp [hnil] at this
          simp [hc, memberOf, getRoomClientIDs, hm, this]
      · rw [if_neg he]
        by_cases hc : c = cID
        · subst hc
          simp [hnodup.not_mem_erase, memberOf, getRoomClientIDs, hm]
        · simp [hc, memberOf, getRoomClientIDs, hm,
            List.mem_erase_of_ne hc]

theorem memberOf_applyOp (h : Hub) (op : HubOp) (c r : String)
    (hwf : HubWF h) :
    memberOf (applyOp h op) c r =
      (match op with
       | .join c' r' => if c' = c ∧ r' = r then true else memberOf h c r
       | .leave c' r' => if c' = c ∧ r' = r then false else memberOf h c r
       | .leaveAll c' => if c' = c then false else memberOf h c r) := by
  cases op with
  | join c' r' =>
      show memberOf (addToRoom c' r' h) c r = _
      rw [memberOf_addToRoom]
      by_cases h1 : c = c' <;> by_cases h2 : r = r' <;>
        simp [h1, h2, eq_comm]
  | leave c' r' =>
      show memberOf (removeFromRoom c' r' h) c r = _
      rw [memberOf_removeFromRoom c' r' h c r hwf]
      by_cases h1 : c = c' <;> by_cases h2 : r = r' <;>
        simp [h1, h2, eq_comm]
  | leaveAll c' =>
      show memberOf (removeFromAllRooms c' h) c r = _
      rw [memberOf_removeFromAllRooms c' h c r hwf]
      by_cases h1 : c = c' <;> simp [h1, eq_comm]

theorem memberOf_foldl (ops : List HubOp) (h : Hub) (c r : String)
    (hwf : HubWF h) :
    memberOf (ops.foldl applyOp h) c r =
      ops.foldl
        (fun b op =>
          match op with
          | .join c' r' => if c' = c ∧ r' = r then true else b
          | .leave c' r' => if c' = c ∧ r' = r then false else b
          | .leaveAll c' => if c' = c then false else b)
        (memberOf h c r) := by
  induction ops generalizing h with
  | nil => rfl
  | cons op rest ih =>
      rw [List.foldl_cons, List.foldl_cons,
        ih (applyOp h op) (hubWF_applyOp h op hwf)]
      congr 1
      rw [memberOf_applyOp h op c r hwf]

/-- Room membership after any operation history equals the spec-level
"joined and not since left" computation. -/
theorem memberOf_runOps (ops : List HubOp) (c r : String) :
    memberOf (runOps ops) c r = specMember ops c r := by
  have := memberOf_foldl ops [] c r hubWF_nil
  simpa [runOps, specMember, memberOf_nil] using this

theorem addToRoom_of_member (cID room : String) (h : Hub)
    (hm : memberOf h cID room = true) : addToRoom cID room h = h := by
  induction h with
  | nil => simp [memberOf_nil] at hm
  | cons p rest ih =>
      obtain ⟨k, cs⟩ := p
      rw [memberOf_cons] at hm
      by_cases hk : k = room
      · rw [if_pos hk] at hm
        have hc : cID ∈ cs := by simpa using hm
        subst hk
        simp [addToRoom, hc]
      · rw [if_neg hk] at hm
        simp [addToRoom, hk, ih hm]

theorem removeFromRoom_of_not_member (cID room : String) (h : Hub)
    (hwf : HubWF h) (hm : memberOf h cID room = false) :
    removeFromRoom cID room h = h := by
  induction h with
  | nil => rfl
  | cons p rest ih =>
      obtain ⟨k, cs⟩ := p
      rw [memberOf_cons] at hm
      by_cases hk : k = room
      · rw [if_pos hk] at hm
        have hc : cID ∉ cs := by simpa using hm
        have her : cs.erase cID = cs := List.erase_of_not_mem hc
        have hne : cs ≠ [] := hwf.2.2 (k, cs) (by simp)
        subst hk
        simp [removeFromRoom, her, hne]
      · rw [if_neg hk] at hm
        simp [removeFromRoom, hk,
          ih (hubWF_tail (k, cs) rest hwf) hm]

theorem removeFromRoom_addToRoom_of_not_member (cID room : String)
    (h : Hub) (hwf : HubWF h) (hm : memberOf h cID room = false) :
    removeFromRoom cID room (addToRoom cID room h) = h := by
  induction h with
  | nil => simp [addToRoom, removeFromRoom]
  | cons p rest ih =>
      obtain ⟨k, cs⟩ := p
      rw [memberOf_cons] at hm
      by_cases hk : k = room
      · rw [if_pos hk] at hm
        have hc : cID ∉ cs := by simpa using hm
        have her : (cs ++ [cID]).erase cID = cs := by
          rw [List.erase_append_right _ hc]
          simp
        have hne : cs ≠ [] := hwf.2.2 (k, cs) (by simp)
        subst hk
        simp [addToRoom, removeFromRoom, hc, her, hne]
      · rw [if_neg hk] at hm
        simp [addToRoom, removeFromRoom, hk,
          ih (hubWF_tail (k, cs) rest hwf) hm]

theorem roomCount_eq_length (r : String) (h : Hub) :
    roomCount r h = (getRoomClientIDs r h).length := by
  cases hm : mapGet h r <;> simp [roomCount, getRoomClientIDs, hm]

theorem getRoomClientIDs_nodup (r : String) (h : Hub) (hwf : HubWF h) :
    (getRoomClientIDs r h).Nodup := by
  cases hm : mapGet h r with
  | none => simp [getRoomClientIDs, hm]
  | some cs =>
      have hcs : (r, cs) ∈ h := mapGet_mem h r cs hm
      simpa [getRoomClientIDs, hm] using hwf.2.1 (r, cs) hcs

/-! ## Path-matcher lemmas -/

theorem joinSlash_nil : joinSlash [] = "" := rfl

theorem matchSegments_rest (pps qs : List String)
    (acc params : List (String × String)) (rest : List String)
    (h : matchSegments pps qs acc = some (params, rest)) :
    rest = qs.drop pps.length ∧ pps.length ≤ qs.length := by
  induction pps generalizing qs acc with
  | nil =>
      simp [matchSegments] at h
      simp [h.2]
  | cons pp pps ih =>
      cases qs with
      | nil => simp [matchSegments] at h
      | cons q qs =>
          by_cases hc : startsWithChar ':' pp
          · rw [matchSegments, if_pos hc] at h
            have := ih qs _ h
            simpa [Nat.succ_le_succ] using this
          · rw [matchSegments, if_neg hc] at h
            by_cases hpq : pp = q
            · rw [if_pos hpq] at h
              have := ih qs _ h
              simpa [Nat.succ_le_succ] using this
            · rw [if_neg hpq] at h
              simp at h

theorem matchSegments_not_bound (pps qs : List String)
    (acc params : List (String × String)) (rest : List String)
    (h : matchSegments pps qs acc = some (params, rest)) (n : String)
    (hn : ∀ pp ∈ pps, startsWithChar ':' pp = true →
      dropLeadChar ':' pp ≠ n) :
    mapGet params n = mapGet acc n := by
  induction pps generalizing qs acc with
  | nil =>
      simp [matchSegments] at h
      simp [h.1]
  | cons pp pps ih =>
      cases qs with
      | nil => simp [matchSegments] at h
      | cons q qs =>
          by_cases hc : startsWithChar ':' pp
          · rw [matchSegments, if_pos hc] at h
            have hne : dropLeadChar ':' pp ≠ n := hn pp (by simp) hc
            rw [ih qs _ h (fun pp' hp hc' =>
              hn pp' (List.mem_cons_of_mem _ hp) hc')]
            exact mapGet_mapSet_ne acc (dropLeadChar ':' pp) n q
              (fun hh => hne hh.symm)
          · rw [matchSegments, if_neg hc] at h
            by_cases hpq : pp = q
            · rw [if_pos hpq] at h
              exact ih qs _ h (fun pp' hp hc' =>
                hn pp' (List.mem_cons_of_mem _ hp) hc')
            · rw [if_neg hpq] at h
              simp at h

theorem matchSegments_bind (pps qs : List String)
    (acc params : List (String × String)) (rest : List String)
    (h : matchSegments pps qs acc = some (params, rest))
    (i : Nat) (hi : i < pps.length)
    (hcolon : startsWithChar ':' (pps.get ⟨i, hi⟩) = true)
    (hlast : ∀ j (hj : j < pps.length), i < j →
      startsWithChar ':' (pps.get ⟨j, hj⟩) = true →
      dropLeadChar ':' (pps.get ⟨j, hj⟩) ≠
        dropLeadChar ':' (pps.get ⟨i, hi⟩)) :
    ∃ (hq : i < qs.length),
      mapGet params (dropLeadChar ':' (pps.get ⟨i, hi⟩)) =
        some (qs.get ⟨i, hq⟩) := by
  induction pps generalizing qs acc i with
  | nil => simp at hi
  | cons pp pps ih =>
      cases qs with
      | nil => simp [matchSegments] at h
      | cons q qs =>
          cases i with
          | zero =>
              have hc : startsWithChar ':' pp = true := hcolon
              rw [matchSegments, if_pos hc] at h
              refine ⟨by simp, ?_⟩
              have hnb : ∀ pp' ∈ pps, startsWithChar ':' pp' = true →
                  dropLeadChar ':' pp' ≠ dropLeadChar ':' pp := by
                intro pp' hp hc'
                obtain ⟨⟨j, hj⟩, hget⟩ := List.mem_iff_get.mp hp
                subst hget
                exact hlast (j + 1) (Nat.succ_lt_succ hj)
                  (Nat.succ_pos j) hc' 
              show mapGet params (dropLeadChar ':' pp) = some q
              rw [matchSegments_not_bound pps qs _ params rest h
                (dropLeadChar ':' pp) hnb]
              exact mapGet_mapSet_self acc (dropLeadChar ':' pp) q
          | succ i' =>
              have hi' : i' < pps.length := Nat.lt_of_succ_lt_succ hi
              have hcolon' : startsWithChar ':'
                  (pps.get ⟨i', hi'⟩) = true := by
                simpa using hcolon
              have hlast' : ∀ j (hj : j < pps.length), i' < j →
                  startsWithChar ':' (pps.get ⟨j, hj⟩) = true →
                  dropLeadChar ':' (pps.get ⟨j, hj⟩) ≠
                    dropLeadChar ':' (pps.get ⟨i', hi'⟩) := by
                intro j hj hij hc'
                have := hlast (j + 1) (Nat.succ_lt_succ hj)
                  (Nat.succ_lt_succ hij) (by simpa using hc')
                simpa using this
              by_cases hc : startsWithChar ':' pp
              · rw [matchSegments, if_pos hc] at h
                obtain ⟨hq, hv⟩ := ih qs _ h i' hi' hcolon' hlast'
                exact ⟨Nat.succ_lt_succ hq, by simpa using hv⟩
              · rw [matchSegments, if_neg hc] at h
                by_cases hpq : pp = q
                · rw [if_pos hpq] at h
                  obtain ⟨hq, hv⟩ := ih qs _ h i' hi' hcolon' hlast'
                  exact ⟨Nat.succ_lt_succ hq, by simpa using hv⟩
                · rw [if_neg hpq] at h
                  simp at h

theorem matchSegments_lit (pps qs : List String)
    (acc params : List (String × String)) (rest : List String)
    (h : matchSegments pps qs acc = some (params, rest))
    (i : Nat) (hi : i < pps.length)
    (hlit : startsWithChar ':' (pps.get ⟨i, hi⟩) = false) :
    ∃ (hq : i < qs.length), pps.get ⟨i, hi⟩ = qs.get ⟨i, hq⟩ := by
  induction pps generalizing qs acc i with
  | nil => simp at hi
  | cons pp pps ih =>
      cases qs with
      | nil => simp [matchSegments] at h
      | cons q qs =>
          cases i with
          | zero =>
              have hc : startsWithChar ':' pp = false := hlit
              rw [matchSegments, if_neg (by simp [hc])] at h
              by_cases hpq : pp = q
              · exact ⟨by simp, by simpa using hpq⟩
              · rw [if_neg hpq] at h
                simp at h
          | succ i' =>
              have hi' : i' < pps.length := Nat.lt_of_succ_lt_succ hi
              have hlit' : startsWithChar ':'
                  (pps.get ⟨i', hi'⟩) = false := by
                simpa using hlit
              by_cases hc : startsWithChar ':' pp
              · rw [matchSegments, if_pos hc] at h
                obtain ⟨hq, hv⟩ := ih qs _ h i' hi' hlit'
                exact ⟨Nat.succ_lt_succ hq, by simpa using hv⟩
              · rw [matchSegments, if_neg hc] at h
                by_cases hpq : pp = q
                · rw [if_pos hpq] at h
                  obtain ⟨hq, hv⟩ := ih qs _ h i' hi' hlit'
                  exact ⟨Nat.succ_lt_succ hq, by simpa using hv⟩
                · rw [if_neg hpq] at h
                  simp at h

theorem matchSegments_complete (pps qs : List String)
    (acc : List (String × String))
    (hlen : pps.length ≤ qs.length)
    (hcompat : ∀ i (hi : i < pps.length) (hq : i < qs.length),
      startsWithChar ':' (pps.get ⟨i, hi⟩) = true ∨
        pps.get ⟨i, hi⟩ = qs.get ⟨i, hq⟩) :
    ∃ params, matchSegments pps qs acc =
      some (params, qs.drop pps.length) := by
  induction pps generalizing qs acc with
  | nil => exact ⟨acc, rfl⟩
  | cons pp pps ih =>
      cases qs with
      | nil => simp at hlen
      | cons q qs =>
          have hlen' : pps.length ≤ qs.length :=
            Nat.le_of_succ_le_succ hlen
          have hcompat' : ∀ i (hi : i < pps.length) (hq : i < qs.length),
              startsWithChar ':' (pps.get ⟨i, hi⟩) = true ∨
                pps.get ⟨i, hi⟩ = qs.get ⟨i, hq⟩ := by
            intro i hi hq
            have := hcompat (i + 1) (Nat.succ_lt_succ hi)
              (Nat.succ_lt_succ hq)
            simpa using this
          by_cases hc : startsWithChar ':' pp
          · obtain ⟨params, hp⟩ :=
              ih qs (mapSet acc (dropLeadChar ':' pp) q) hlen' hcompat'
            exact ⟨params, by rw [matchSegments, if_pos hc]; simpa using hp⟩
          · have h0 := hcompat 0 (by simp) (by simp)
            simp only [List.get] at h0
            rcases h0 with h0 | h0
            · exact absurd h0 (by simp [hc])
            · obtain ⟨params, hp⟩ := ih qs acc hlen' hcompat'
              refine ⟨params, ?_⟩
              rw [matchSegments, if_neg hc, if_pos h0]
              simpa using hp

theorem validatePartCounts_le (pps qs : List String) (hwc : Bool)
    (hv : validatePartCounts pps qs hwc = true) :
    pps.length ≤ qs.length := by
  cases hwc <;> simp [validatePartCounts] at hv <;> omega

theorem matchPath_of_ne (pattern path : String) (hne : pattern ≠ path) :
    matchPath pattern path =
      (if validatePartCounts (strippedPatternParts pattern)
          (splitPath path) (checkWildcard (splitPath pattern)).1 then
        match matchSegments (strippedPatternParts pattern)
            (splitPath path) [] with
        | some (params, leftover) =>
            if (checkWildcard (splitPath pattern)).1 then
              (true, mapSet params (checkWildcard (splitPath pattern)).2
                (joinSlash leftover))
            else (true, params)
        | none => (false, [])
      else (false, [])) := by
  simp only [matchPath, if_neg hne, strippedPatternParts]

theorem matchPath_true_of_ne (pattern path : String)
    (hne : pattern ≠ path) (hm : (matchPath pattern path).1 = true) :
    validatePartCounts (strippedPatternParts pattern) (splitPath path)
        (checkWildcard (splitPath pattern)).1 = true ∧
    ∃ params leftover,
      matchSegments (strippedPatternParts pattern) (splitPath path) [] =
        some (params, leftover) ∧
      (matchPath pattern path).2 =
        (if (checkWildcard (splitPath pattern)).1 then
          mapSet params (checkWildcard (splitPath pattern)).2
            (joinSlash leftover)
        else params) := by
  rw [matchPath_of_ne pattern path hne] at hm ⊢
  by_cases hv : validatePartCounts (strippedPatternParts pattern)
      (splitPath path) (checkWildcard (splitPath pattern)).1
  · rw [if_pos hv] at hm ⊢
    refine ⟨hv, ?_⟩
    cases hms : matchSegments (strippedPatternParts pattern)
        (splitPath path) [] with
    | none => rw [hms] at hm; simp at hm
    | some pr =>
        obtain ⟨params, leftover⟩ := pr
        refine ⟨params, leftover, rfl, ?_⟩
        by_cases hwc : (checkWildcard (splitPath pattern)).1 <;>
          simp [hwc]
  · rw [if_neg hv] at hm
    simp at hm

/-! ## Claim theorems -/

/-- C3: acquiring a pooled context for a new request fully clears the
previous occupant's key/value store and path params, resets the status
code to its default (200) and the written flag to `false`; any key the
previous request stored is absent (`Get` returns not-found), and the
acquired state is entirely independent of the previous occupant. -/
theorem claim_C3_context_pool_isolation (c : Context) (w : Writer)
    (req : Request) (pl : Nat) (k : String) (v : GoValue) :
    (acquireContext (c.set k v) w req pl).get k = none ∧
    (acquireContext c w req pl).keys = [] ∧
    (acquireContext c w req pl).params = [] ∧
    (acquireContext c w req pl).statusCode = 200 ∧
    (acquireContext c w req pl).written = false ∧
    ∀ c' : Context, acquireContext c w req pl = acquireContext c' w req pl :=
  ⟨rfl, rfl, rfl, rfl, rfl, fun _ => rfl⟩

/-- C10: `Emit` and `EmitAsync` with a nil context invoke no handler at
all; `Server.Run` and `Server.Shutdown` emit `server_start` and
`server_stop` with a nil context, so handlers registered for those kinds
(including via `OnServerStart`/`OnServerStop`) are never invoked by the
server lifecycle. -/
theorem claim_C10_nil_context_emits_nothing (p : EventPipeline)
    (ev : String) (f : Unit → Unit) :
    (p.emit ev none).1 = [] ∧ (p.emit ev none).2 = none ∧
    p.emitAsync ev none = [] ∧
    serverRunStartEmit p = ([], none) ∧
    serverShutdownStopEmit p = ([], none) ∧
    (serverRunStartEmit (p.onServerStart f)).1 = [] ∧
    (serverShutdownStopEmit (p.onServerStop f)).1 = [] := by
  refine ⟨by rw [emit_none], by rw [emit_none], emitAsync_none p ev,
    ?_, ?_, ?_, ?_⟩
  · exact emit_none p EventServerStart
  · exact emit_none p EventServerStop
  · rw [show serverRunStartEmit (p.onServerStart f) =
      (p.onServerStart f).emit EventServerStart none from rfl, emit_none]
  · rw [show serverShutdownStopEmit (p.onServerStop f) =
      (p.onServerStop f).emit EventServerStop none from rfl, emit_none]

/-- C8 counterexample: with one handler registered for kind `e`, `Emit`
with a nil context argument invokes no handler, so it does not invoke
every handler registered for the kind as the claim states for every
context argument. -/
theorem claim_C8_counterexample :
    ¬ ((EventPipeline.mk [("e", [fun c => c])]).emit "e" none).1 =
      lookupHandlers (EventPipeline.mk [("e", [fun c => c])]) "e" := by
  intro hcontra
  have h1 : ((EventPipeline.mk [("e", [fun c => c])]).emit "e" none).1 =
      ([] : List EventHandler) := by
    rw [emit_none]
  have h2 : lookupHandlers (EventPipeline.mk [("e", [fun c => c])]) "e" =
      [fun c => c] := rfl
  rw [h1, h2] at hcontra
  simpa using congrArg List.length hcontra

/-- C8 (amended): for every non-nil context argument, a single `Emit`
call invokes exactly the handlers registered for the kind at the moment
the call begins — each once, in registration order, synchronously
threading the caller's context through them; a handler registered
afterwards is appended at the end and appears only in later
emissions. -/
theorem claim_C8_emit_order (p : EventPipeline) (ev : String)
    (c : Context) (h' : EventHandler) :
    (p.emit ev (some c)).1 = lookupHandlers p ev ∧
    (p.emit ev (some c)).2 =
      some ((lookupHandlers p ev).foldl (fun x h => h x) c) ∧
    lookupHandlers (p.on ev h') ev = lookupHandlers p ev ++ [h'] := by
  refine ⟨?_, ?_, lookupHandlers_on_self p ev h'⟩ <;> rw [emit_some]

/-- C2: the built middleware chain nests the route handler innermost,
wraps it in the route-scoped middlewares from last-registered innermost
to first-registered outermost, then in the global middlewares the same
way; instantiated with logging middlewares, the response log shows every
global middleware acting before and after every route-scoped one. -/
theorem claim_C2_middleware_chain_order (r : Router) (route : Route)
    (gs rs : List String) (c : Context) :
    buildMiddlewareChain r route =
      (r.middlewares ++ route.middlewares).foldr (fun m h => m h)
        route.handler ∧
    ((buildMiddlewareChain
        { routes := [], middlewares := gs.map traceMw, notFound := none,
          methodNotAllowed := none }
        { method := "GET", path := "/", handler := traceHandler "handler",
          middlewares := rs.map traceMw }) c).1.writer.body =
      c.writer.body ++ gs.map (fun n => "before:" ++ n) ++
        rs.map (fun n => "before:" ++ n) ++ ["handler"] ++
        (rs.map (fun n => "after:" ++ n)).reverse ++
        (gs.map (fun n => "after:" ++ n)).reverse := by
  constructor
  · rw [buildMiddlewareChain, List.foldr_append]
  · have h1 := traceChain_foldr gs
      ((rs.map traceMw).foldr (fun m h => m h) (traceHandler "handler")) c
    have h2 := traceChain_foldr rs (traceHandler "handler")
      (appendBody c (gs.map (fun n => "before:" ++ n)))
    show (((gs.map traceMw).foldr (fun m h => m h)
        ((rs.map traceMw).foldr (fun m h => m h)
          (traceHandler "handler"))) c).1.writer.body = _
    rw [h1, h2]
    simp [appendBodyPair, appendBody, traceHandler, Writer.write,
      List.append_assoc]

/-- C1: route resolution is a linear scan returning the first registered
route whose method and pattern both match (`List.find?` on the table);
with two same-method same-pattern routes registered, a matching request
is dispatched through the first-registered one's chain; and swapping two
adjacent routes that never both match the same request leaves every
resolution unchanged. -/
theorem claim_C1_first_match_wins (routes : List Route) (m p : String) :
    (findRoute routes m p =
      (routes.find? (fun rt => routeMatches rt m p)).map
        (fun rt => (rt, (matchPath rt.path p).2))) ∧
    (∀ (pre post : List Route) (a b : Route) (r : Router) (c : Context),
      routes = pre ++ a :: b :: post → a.method = b.method →
      a.path = b.path →
      (∀ rt ∈ pre, routeMatches rt m p = false) →
      routeMatches a m p = true →
      r.routes = routes →
      handleRequest r c { method := m, path := p } =
        buildMiddlewareChain r a
          { c with params := (matchPath a.path p).2 }) ∧
    (∀ (pre post : List Route) (a b : Route),
      (∀ m' p', ¬ (routeMatches a m' p' = true ∧
        routeMatches b m' p' = true)) →
      findRoute (pre ++ a :: b :: post) m p =
        findRoute (pre ++ b :: a :: post) m p) := by
  refine ⟨findRoute_eq_find? routes m p, ?_, ?_⟩
  · intro pre post a b r c hroutes _ _ hpre ha hr
    have hfr : findRoute routes m p = some (a, (matchPath a.path p).2) := by
      rw [hroutes, findRoute_append_of_no_match pre _ m p hpre,
        findRoute_cons, if_pos ha]
    rw [handleRequest]
    rw [show ({ method := m, path := p } : Request).method = m from rfl,
      show ({ method := m, path := p } : Request).path = p from rfl,
      hr, hfr]
  · intro pre post a b hno
    induction pre with
    | nil =>
        simp only [List.nil_append, findRoute_cons]
        by_cases ha : routeMatches a m p <;>
          by_cases hb : routeMatches b m p
        · exact absurd ⟨ha, hb⟩ (hno m p)
        · simp [ha, hb]
        · simp [ha, hb]
        · simp [ha, hb]
    | cons x pre ih =>
        simp only [List.cons_append, findRoute_cons]
        by_cases hx : routeMatches x m p <;> simp [hx, ih]

/-- C1 witness: on a table with two identical `GET /a` registrations the
first one's chain handles `GET /a`, and swapping the never-overlapping
`GET /a` / `POST /b` routes leaves resolution of `GET /a` unchanged. -/
theorem claim_C1_witness :
    routeMatches routeGA "GET" "/a" = true ∧
    handleRequest sampleRouter sampleContext
        { method := "GET", path := "/a" } =
      buildMiddlewareChain sampleRouter routeGA
        { sampleContext with params := (matchPath routeGA.path "/a").2 } ∧
    findRoute [routeGA, routePB] "GET" "/a" =
      findRoute [routePB, routeGA] "GET" "/a" := by
  refine ⟨by decide, ?_, ?_⟩
  · exact (claim_C1_first_match_wins [routeGA, routeGA2] "GET" "/a").2.1
      [] [] routeGA routeGA2 sampleRouter sampleContext rfl rfl rfl
      (by simp) (by decide) rfl
  · refine (claim_C1_first_match_wins [routeGA, routePB] "GET"
      "/a").2.2 [] [] routeGA routePB ?_
    intro m' p' hc
    have h1 := hc.1
    have h2 := hc.2
    simp only [routeMatches, routeGA, routePB, Bool.and_eq_true,
      beq_iff_eq] at h1 h2
    exact absurd (h1.1.trans h2.1.symm) (by decide)

/-- C4: when no route matches on method and path together, dispatch runs
a second scan ignoring the method: if some pattern matches the path it
produces the 405 response (the custom `MethodNotAllowed` handler when
installed, otherwise the default error body with status 405); if no
pattern matches the path it produces the 404 response instead (custom
`NotFound` handler or default body with status 404). -/
theorem claim_C4_method_not_allowed_vs_not_found (r : Router)
    (c : Context) (req : Request)
    (hnone : ∀ rt ∈ r.routes,
      routeMatches rt req.method req.path = false) :
    ((∃ rt ∈ r.routes, (matchPath rt.path req.path).1 = true) →
      handleRequest r c req =
        (match r.methodNotAllowed with
         | some h => h c
         | none => c.error 405 "Method Not Allowed")) ∧
    ((∀ rt ∈ r.routes, (matchPath rt.path req.path).1 = false) →
      handleRequest r c req =
        (match r.notFound with
         | some h => h c
         | none => c.error 404 "Not Found")) ∧
    (r.methodNotAllowed = none → c.writer.sentStatus = none →
      (∃ rt ∈ r.routes, (matchPath rt.path req.path).1 = true) →
      (handleRequest r c req).1.writer.sentStatus = some 405 ∧
        (handleRequest r c req).1.written = true) ∧
    (r.notFound = none → c.writer.sentStatus = none →
      (∀ rt ∈ r.routes, (matchPath rt.path req.path).1 = false) →
      (handleRequest r c req).1.writer.sentStatus = some 404 ∧
        (handleRequest r c req).1.written = true) := by
  have hfr : findRoute r.routes req.method req.path = none :=
    findRoute_eq_none_of_no_match r.routes req.method req.path hnone
  have hreq : handleRequest r c req = handleNoMatch r c req.path := by
    rw [handleRequest, hfr]
  have hany : ∀ (hex : ∃ rt ∈ r.routes,
      (matchPath rt.path req.path).1 = true),
      (r.routes.any fun route => (matchPath route.path req.path).1) =
        true := by
    intro hex
    obtain ⟨rt, hrt, hmt⟩ := hex
    exact List.any_eq_true.mpr ⟨rt, hrt, hmt⟩
  have hnoneany : ∀ (hall : ∀ rt ∈ r.routes,
      (matchPath rt.path req.path).1 = false),
      (r.routes.any fun route => (matchPath route.path req.path).1) =
        false := by
    intro hall
    rw [List.any_eq_false]
    intro rt hrt
    simp [hall rt hrt]
  refine ⟨?_, ?_, ?_, ?_⟩
  · intro hex
    rw [hreq, handleNoMatch, if_pos (hany hex)]
  · intro hall
    rw [hreq, handleNoMatch, if_neg (by simp [hnoneany hall])]
  · intro hcustom hsent hex
    rw [hreq, handleNoMatch, if_pos (hany hex), hcustom]
    simp [Context.error, Context.toJSON, Writer.writeHeader,
      Writer.write, hsent]
  · intro hcustom hsent hall
    rw [hreq, handleNoMatch, if_neg (by simp [hnoneany hall]), hcustom]
    simp [Context.error, Context.toJSON, Writer.writeHeader,
      Writer.write, hsent]

/-- C4 witness: a table with only `GET /items` turns `DELETE /items`
into the default 405 response, and `DELETE /missing` into the default
404 response. -/
theorem claim_C4_witness :
    (∀ rt ∈ routerItems.routes,
      routeMatches rt "DELETE" "/items" = false) ∧
    (handleRequest routerItems sampleContext
        { method := "DELETE", path := "/items" }).1.writer.sentStatus =
      some 405 := by
  have happ := claim_C4_method_not_allowed_vs_not_found routerItems
    sampleContext { method := "DELETE", path := "/items" } (by decide)
  refine ⟨by decide, ?_⟩
  exact (happ.2.2.1 rfl rfl ⟨routeItems, by simp [routerItems], by decide⟩).1

/-- C5: after any finite join/leave/leaveAll history, a room's
membership is exactly the set of distinct clients that joined it and
have not since left; joining when already a member changes nothing,
leaving when not a member changes nothing, the member list is
duplicate-free, the count is the cardinality of the member set, and the
concrete join/join/leave history yields count 0. -/
theorem claim_C5_membership_invariant (ops : List HubOp)
    (c r : String) :
    memberOf (runOps ops) c r = specMember ops c r ∧
    (memberOf (runOps ops) c r = true →
      addToRoom c r (runOps ops) = runOps ops) ∧
    (memberOf (runOps ops) c r = false →
      removeFromRoom c r (runOps ops) = runOps ops) ∧
    (getRoomClientIDs r (runOps ops)).Nodup ∧
    (∀ c', c' ∈ getRoomClientIDs r (runOps ops) ↔
      specMember ops c' r = true) ∧
    roomCount r (runOps ops) =
      (getRoomClientIDs r (runOps ops)).toFinset.card ∧
    roomCount "lobby" (runOps [.join "c1" "lobby", .join "c1" "lobby",
      .leave "c1" "lobby"]) = 0 := by
  have hwf := hubWF_runOps ops
  refine ⟨memberOf_runOps ops c r, addToRoom_of_member c r _,
    removeFromRoom_of_not_member c r _ hwf,
    getRoomClientIDs_nodup r _ hwf, ?_, ?_, by decide⟩
  · intro c'
    rw [← memberOf_runOps ops c' r]
    simp [memberOf]
  · rw [roomCount_eq_length,
      List.toFinset_card_of_nodup (getRoomClientIDs_nodup r _ hwf)]

/-- C5 witness: after a single join, the joiner is a member and
re-joining or an unrelated leave is a no-op on the hub state. -/
theorem claim_C5_witness :
    memberOf (runOps [.join "c1" "lobby"]) "c1" "lobby" = true ∧
    addToRoom "c1" "lobby" (runOps [.join "c1" "lobby"]) =
      runOps [.join "c1" "lobby"] ∧
    memberOf (runOps [.join "c1" "lobby"]) "c2" "lobby" = false ∧
    removeFromRoom "c2" "lobby" (runOps [.join "c1" "lobby"]) =
      runOps [.join "c1" "lobby"] := by
  refine ⟨by decide, ?_, by decide, ?_⟩
  · exact (claim_C5_membership_invariant [.join "c1" "lobby"]
      "c1" "lobby").2.1 (by decide)
  · exact (claim_C5_membership_invariant [.join "c1" "lobby"]
      "c2" "lobby").2.2.1 (by decide)

/-- C9 counterexample: starting from the empty hub (so `c1` is not
initially a member), join, join, leave leaves `c1` NOT a member of
`lobby` and the count at 0 — the claim asserts the client would still
be a member. -/
theorem claim_C9_counterexample :
    memberOf (removeFromRoom "c1" "lobby" (addToRoom "c1" "lobby"
      (addToRoom "c1" "lobby" []))) "c1" "lobby" = false ∧
    roomCount "lobby" (removeFromRoom "c1" "lobby" (addToRoom "c1"
      "lobby" (addToRoom "c1" "lobby" []))) = 0 := by
  decide

/-- C9 (amended): joins are set inserts, not reference counts — for a
client not initially a member, join, join, leave restores the original
hub state exactly, so the client is NOT a member afterwards and the
room count is unchanged. -/
theorem claim_C9_join_join_leave (h : Hub) (c r : String)
    (hwf : HubWF h) (hm : memberOf h c r = false) :
    removeFromRoom c r (addToRoom c r (addToRoom c r h)) = h ∧
    memberOf (removeFromRoom c r (addToRoom c r (addToRoom c r h)))
      c r = false ∧
    roomCount r (removeFromRoom c r (addToRoom c r (addToRoom c r h))) =
      roomCount r h := by
  have h1 : memberOf (addToRoom c r h) c r = true := by
    rw [memberOf_addToRoom]
    simp
  have h2 : addToRoom c r (addToRoom c r h) = addToRoom c r h :=
    addToRoom_of_member c r _ h1
  rw [h2, removeFromRoom_addToRoom_of_not_member c r h hwf hm]
  exact ⟨rfl, hm, rfl⟩

/-- C9 witness: on a well-formed hub where `c1` is not in `lobby`,
join/join/leave restores the state. -/
theorem claim_C9_witness :
    HubWF [("x", ["a"])] ∧
    memberOf [("x", ["a"])] "c1" "lobby" = false ∧
    removeFromRoom "c1" "lobby" (addToRoom "c1" "lobby" (addToRoom "c1"
      "lobby" [("x", ["a"])])) = [("x", ["a"])] := by
  refine ⟨⟨by decide, by decide, by decide⟩, by decide, ?_⟩
  exact (claim_C9_join_join_leave [("x", ["a"])] "c1" "lobby"
    ⟨by decide, by decide, by decide⟩ (by decide)).1

/-- C6 counterexample: the exact-equality fast path returns an empty
parameter map, so for pattern `/users/:id` and path `/users/:id` the
match succeeds with the `:` segment NOT bound; and with duplicate
parameter names (`/:x/:x` against `/a/b`) the first `:` segment's
binding is overwritten, so it is not bound to its own path segment. -/
theorem claim_C6_counterexample :
    (matchPath "/users/:id" "/users/:id").1 = true ∧
    startsWithChar ':'
      ((strippedPatternParts "/users/:id").get ⟨1, by decide⟩) = true ∧
    ¬ mapGet (matchPath "/users/:id" "/users/:id").2 "id" = some ":id" ∧
    (matchPath "/:x/:x" "/a/b").1 = true ∧
    ¬ mapGet (matchPath "/:x/:x" "/a/b").2 "x" = some "a" := by
  refine ⟨by decide, by decide, by decide, by decide, by decide⟩

/-- C6 (amended): for a match not taken through the exact-equality fast
path (pattern ≠ path), every non-`:` pattern segment equals its path
segment exactly, and every `:` segment binds its suffix name to the path
segment at its position provided no later writer (a later `:` segment
with the same name, or the trailing wildcard with that name) overwrites
it — duplicates overwrite, last writer wins. -/
theorem claim_C6_param_binding (pattern path : String)
    (hne : pattern ≠ path)
    (hm : (matchPath pattern path).1 = true) :
    (strippedPatternParts pattern).length ≤ (splitPath path).length ∧
    ∀ i (hi : i < (strippedPatternParts pattern).length)
      (hq : i < (splitPath path).length),
      (startsWithChar ':'
          ((strippedPatternParts pattern).get ⟨i, hi⟩) = false →
        (strippedPatternParts pattern).get ⟨i, hi⟩ =
          (splitPath path).get ⟨i, hq⟩) ∧
      (startsWithChar ':'
          ((strippedPatternParts pattern).get ⟨i, hi⟩) = true →
        (∀ j (hj : j < (strippedPatternParts pattern).length), i < j →
          startsWithChar ':'
            ((strippedPatternParts pattern).get ⟨j, hj⟩) = true →
          dropLeadChar ':'
              ((strippedPatternParts pattern).get ⟨j, hj⟩) ≠
            dropLeadChar ':'
              ((strippedPatternParts pattern).get ⟨i, hi⟩)) →
        ((checkWildcard (splitPath pattern)).1 = true →
          (checkWildcard (splitPath pattern)).2 ≠
            dropLeadChar ':'
              ((strippedPatternParts pattern).get ⟨i, hi⟩)) →
        mapGet (matchPath pattern path).2
            (dropLeadChar ':'
              ((strippedPatternParts pattern).get ⟨i, hi⟩)) =
          some ((splitPath path).get ⟨i, hq⟩)) := by
  obtain ⟨hv, params, leftover, hms, hres⟩ :=
    matchPath_true_of_ne pattern path hne hm
  refine ⟨validatePartCounts_le _ _ _ hv, ?_⟩
  intro i hi hq
  constructor
  · intro hlit
    obtain ⟨hq', hvv⟩ := matchSegments_lit
      (strippedPatternParts pattern) (splitPath path) [] params
      leftover hms i hi hlit
    exact hvv
  · intro hcolon hlast hwcne
    obtain ⟨hq', hvv⟩ := matchSegments_bind
      (strippedPatternParts pattern) (splitPath path) [] params
      leftover hms i hi hcolon hlast
    rw [hres]
    by_cases hwc : (checkWildcard (splitPath pattern)).1
    · rw [if_pos hwc,
        mapGet_mapSet_ne params (checkWildcard (splitPath pattern)).2
          (dropLeadChar ':' ((strippedPatternParts pattern).get ⟨i, hi⟩))
          (joinSlash leftover)
          (fun hh => (hwcne hwc) hh.symm)]
      exact hvv
    · rw [if_neg hwc]
      exact hvv

/-- C6 witness: `/users/:id` against `/users/42` matches with `id`
bound to `42`. -/
theorem claim_C6_witness :
    ("/users/:id" : String) ≠ "/users/42" ∧
    (matchPath "/users/:id" "/users/42").1 = true ∧
    mapGet (matchPath "/users/:id" "/users/42").2 "id" = some "42" := by
  refine ⟨by decide, by decide, ?_⟩
  have hb := ((claim_C6_param_binding "/users/:id" "/users/42"
      (by decide) (by decide)).2 1 (by decide) (by decide)).2
    (by decide) (by decide) (by decide)
  have e1 : dropLeadChar ':'
      ((strippedPatternParts "/users/:id").get ⟨1, by decide⟩) =
        "id" := by decide
  have e2 : (splitPath "/users/42").get ⟨1, by decide⟩ = "42" := by
    decide
  rw [e1, e2] at hb
  exact hb

/-- C7 counterexample: the exact-equality fast path returns an empty
parameter map, so matching the wildcard pattern `/static/*filepath`
against the literal path `/static/*filepath` succeeds without binding
`filepath`, although the remaining path segments join to
`*filepath`. -/
theorem claim_C7_counterexample :
    (checkWildcard (splitPath "/static/*filepath")).1 = true ∧
    (matchPath "/static/*filepath" "/static/*filepath").1 = true ∧
    joinSlash ((splitPath "/static/*filepath").drop
      (strippedPatternParts "/static/*filepath").length) =
        "*filepath" ∧
    ¬ mapGet (matchPath "/static/*filepath" "/static/*filepath").2
        "filepath" = some "*filepath" := by
  refine ⟨by decide, by decide, by decide, by decide⟩

/-- C7 (amended): for a wildcard pattern and a path with at least as
many segments as the stripped pattern, if every preceding segment is a
parameter or equals its path segment, and the pattern is not literally
equal to the path (excluding the fast path), the match succeeds and
binds the name after `*` to the remaining path segments joined by `/`;
with zero remaining segments the binding is the empty string. -/
theorem claim_C7_wildcard_binding (pattern path : String)
    (hne : pattern ≠ path)
    (hwc : (checkWildcard (splitPath pattern)).1 = true)
    (hlen : (strippedPatternParts pattern).length ≤
      (splitPath path).length)
    (hcompat : ∀ i (hi : i < (strippedPatternParts pattern).length)
      (hq : i < (splitPath path).length),
      startsWithChar ':'
          ((strippedPatternParts pattern).get ⟨i, hi⟩) = true ∨
        (strippedPatternParts pattern).get ⟨i, hi⟩ =
          (splitPath path).get ⟨i, hq⟩) :
    (matchPath pattern path).1 = true ∧
    mapGet (matchPath pattern path).2
        (checkWildcard (splitPath pattern)).2 =
      some (joinSlash ((splitPath path).drop
        (strippedPatternParts pattern).length)) ∧
    ((splitPath path).length = (strippedPatternParts pattern).length →
      mapGet (matchPath pattern path).2
          (checkWildcard (splitPath pattern)).2 = some "") := by
  obtain ⟨params, hms⟩ := matchSegments_complete
    (strippedPatternParts pattern) (splitPath path) [] hlen hcompat
  have hv : validatePartCounts (strippedPatternParts pattern)
      (splitPath path) (checkWildcard (splitPath pattern)).1 = true := by
    rw [hwc]
    simpa [validatePartCounts] using hlen
  have hdrop :
      mapGet (matchPath pattern path).2
          (checkWildcard (splitPath pattern)).2 =
        some (joinSlash ((splitPath path).drop
          (strippedPatternParts pattern).length)) ∧
      (matchPath pattern path).1 = true := by
    rw [matchPath_of_ne pattern path hne, if_pos hv, hms]
    refine ⟨?_, ?_⟩ <;> simp [hwc, mapGet_mapSet_self]
  refine ⟨hdrop.2, hdrop.1, ?_⟩
  intro hlen'
  rw [hdrop.1]
  rw [show (splitPath path).drop (strippedPatternParts pattern).length =
    [] from by rw [← hlen']; exact List.drop_length _]
  rfl

/-- C7 witness: `/static/*filepath` matches `/static/css/app.css` with
`filepath` bound to `css/app.css`, and matches `/static` with
`filepath` bound to the empty string. -/
theorem claim_C7_witness :
    mapGet (matchPath "/static/*filepath" "/static/css/app.css").2
        "filepath" = some "css/app.css" ∧
    mapGet (matchPath "/static/*filepath" "/static").2 "filepath" =
      some "" := by
  constructor
  · have hb := (claim_C7_wildcard_binding "/static/*filepath"
      "/static/css/app.css" (by decide) (by decide) (by decide)
      (by decide)).2.1
    have e1 : (checkWildcard (splitPath "/static/*filepath")).2 =
        "filepath" := by decide
    have e2 : joinSlash ((splitPath "/static/css/app.css").drop
        (strippedPatternParts "/static/*filepath").length) =
          "css/app.css" := by decide
    rw [e1, e2] at hb
    exact hb
  · have hb := (claim_C7_wildcard_binding "/static/*filepath" "/static"
      (by decide) (by decide) (by decide) (by decide)).2.2 (by decide)
    have e1 : (checkWildcard (splitPath "/static/*filepath")).2 =
        "filepath" := by decide
    rw [e1] at hb
    exact hb

end Poltergeist
